import Mathlib

/-!
Shallow embedding of the render-job submission logic of
SubmitKatanaToDeadline.py (and deadline_katana/scene.py), together with
proofs about the embedded definitions.  Paths, file contents and job
results are modelled as lists of characters or strings; a host scene-graph
output node is modelled by the KNode structure carrying its scene-unique
name and its dependency node names; the Python dict nodeToID is modelled
as an insertion-ordered association list.
-/

/-- A Render or ImageWrite output node as the submitter sees it: a
scene-unique name plus the dependency node names obtained from the farm
dependency query (source: GetAllDependencyNames, line 868). -/
structure KNode where
  name : String
  deps : List String
deriving DecidableEq

/-- Keys of the nodeToID association list, in insertion order (Python
dct.keys()). -/
def dctKeys (dct : List (String × String)) : List String := dct.map Prod.fst

/-- GetAllDependencyNames (source line 868): the unique dependency names of
a node.  Python's list(set(dependencies)) is modelled with List.dedup:
CPython's set iteration order is unspecified, dedup fixes one order. -/
def GetAllDependencyNames (n : KNode) : List String := n.deps.dedup

/-- RenderNodeReady (source line 863): a node is ready when all its
dependencies have been accounted for, Python set(deps) <= set(dct.keys()). -/
def RenderNodeReady (n : KNode) (dct : List (String × String)) : Bool :=
  (GetAllDependencyNames n).all (fun d => decide (d ∈ dctKeys dct))

/-- Python dict assignment dct[k] = v: updates the value in place when the
key is present (keeping its position), otherwise appends a new entry. -/
def dictInsert (dct : List (String × String)) (k v : String) :
    List (String × String) :=
  if k ∈ dctKeys dct then
    dct.map (fun kv => if kv.1 = k then (k, v) else kv)
  else dct ++ [(k, v)]

/-- Outcome of the while-loop of SubmitPressed (source lines 396-408).
ok is normal exit (working list emptied); indexError is the uncaught
IndexError raised by items[currNode] once the scan index runs past the end
of the working list.  The order field records the sequence of submitted
nodes, observable as the sequence of WriteJobFilesAndSubmit calls. -/
inductive LoopResult where
  | ok (order : List KNode) (nodeToID : List (String × String))
  | indexError (order : List KNode) (items : List KNode)
      (nodeToID : List (String × String))
deriving DecidableEq

/-- The submission sequence recorded in a loop result. -/
def LoopResult.order : LoopResult → List KNode
  | .ok o _ => o
  | .indexError o _ _ => o

/-- The final nodeToID map of a loop result. -/
def LoopResult.dct : LoopResult → List (String × String)
  | .ok _ d => d
  | .indexError _ _ d => d

/-- The nodes still in the working list when the loop ended (empty on
normal exit). -/
def LoopResult.rem : LoopResult → List KNode
  | .ok _ _ => []
  | .indexError _ i _ => i

/-- One submission run of the loop in SubmitPressed (lines 388-408):
items is the working list, nodeToID the name-to-job-id dict, currNode the
scan index, currJob counts submissions; jobIdOf j abstracts the job id
parsed (GetJobIDFromJobResults) from the j-th external submission's output.
The value of GetDependentIDString computed before each submission feeds the
written descriptor only and does not influence control flow, so it is not
threaded here.  fuel bounds the number of loop iterations; none means the
bound was reached. -/
def submitLoopAux (jobIdOf : Nat → String) :
    Nat → List KNode → List (String × String) → Nat → Nat → List KNode →
    Option LoopResult
  | 0, _, _, _, _, _ => none
  | fuel + 1, items, nodeToID, currNode, currJob, order =>
    match items[currNode]? with
    | none => some (.indexError order items nodeToID)
    | some node =>
      if RenderNodeReady node nodeToID then
        let nodeToID2 := dictInsert nodeToID node.name (jobIdOf currJob)
        let items2 := items.erase node
        let order2 := order ++ [node]
        if items2.isEmpty then some (.ok order2 nodeToID2)
        else submitLoopAux jobIdOf fuel items2 nodeToID2 0 (currJob + 1) order2
      else submitLoopAux jobIdOf fuel items nodeToID (currNode + 1) currJob order

/-- Direct dependency relation induced by a node list: DependsOn items a b
holds when the node named a lists b among its dependency names. -/
def DependsOn (items : List KNode) (a b : String) : Prop :=
  ∃ n ∈ items, n.name = a ∧ b ∈ n.deps

/-- Submission order soundness: scanning the submitted sequence left to
right with the set of already-seen names, every node's dependencies are
among the names seen before it. -/
def depGoodFrom (seen : List String) : List KNode → Bool
  | [] => true
  | n :: rest =>
    n.deps.all (fun d => decide (d ∈ seen)) && depGoodFrom (seen ++ [n.name]) rest

/-- The JobDependencies value written by WriteJobFilesAndSubmit
(source lines 457-462): Python
if len(user) and len(ids): user + "," + ids else: user or ids. -/
def jobDependenciesValue (userDeps dependentIDs : List Char) : List Char :=
  if userDeps.length ≠ 0 ∧ dependentIDs.length ≠ 0 then
    userDeps ++ ',' :: dependentIDs
  else if userDeps.length ≠ 0 then userDeps
  else dependentIDs

/-- Python nodeIDDict[dep]: association-list lookup; none models the
KeyError raised on a missing key. -/
def lookupID (dct : List (String × String)) (k : String) : Option String :=
  (dct.find? (fun kv => kv.1 == k)).map Prod.snd

/-- Python ",".join(ids). -/
def joinComma : List String → String
  | [] => ""
  | [s] => s
  | s :: rest => s ++ "," ++ joinComma rest

/-- The for-loop of GetDependentIDString: ids.append(nodeIDDict[dep]) for
each dependency in turn; none models the KeyError raised at the first
missing dependency. -/
def collectIDs (dct : List (String × String)) :
    List String → Option (List String)
  | [] => some []
  | d :: rest =>
    match lookupID dct d with
    | none => none
    | some v => (collectIDs dct rest).map (fun vs => v :: vs)

/-- GetDependentIDString (source lines 874-881): look every dependency name
up in nodeIDDict and join the ids with commas; none models the KeyError on
a missing dependency. -/
def GetDependentIDString (n : KNode) (dct : List (String × String)) :
    Option String :=
  (collectIDs dct (GetAllDependencyNames n)).map joinComma

/-- The informational message shown when a pre-flight submission check of
SubmitPressed fails (source lines 358-372). -/
inductive AbortReason where
  | noSceneFile
  | noOutputNodes
  | noFrameRange
deriving DecidableEq

/-- The render-node selection mode read from the form's drop-down
(source lines 386-388). -/
inductive RenderSel where
  | selectNode (n : KNode)
  | submitAll
deriving DecidableEq

/-- Observable outcome of one SubmitPressed invocation: the informational
abort message, if any, and the sequence of WriteJobFilesAndSubmit calls
(each of which spawns one external submission process). -/
structure SubmitRun where
  abortReason : Option AbortReason
  submissions : List KNode
deriving DecidableEq

/-- SubmitPressed (source lines 352-408): the three pre-flight checks in
source order (scene file set, eligible output nodes exist, frame range
non-empty), then either the single-node submission or the dependency-
ordered loop.  In the fuel-exhausted loop case (unreachable for
sufficiently large fuel) the submission record is left empty. -/
def SubmitPressedModel (jobIdOf : Nat → String) (fuel : Nat)
    (scene : List Char) (sel : RenderSel) (items : List KNode)
    (frames : List Char) : SubmitRun :=
  if scene.isEmpty then ⟨some .noSceneFile, []⟩
  else if items.isEmpty then ⟨some .noOutputNodes, []⟩
  else if frames.isEmpty then ⟨some .noFrameRange, []⟩
  else
    match sel with
    | .selectNode n => ⟨none, [n]⟩
    | .submitAll =>
      match submitLoopAux jobIdOf fuel items [] 0 0 [] with
      | some r => ⟨none, r.order⟩
      | none => ⟨none, []⟩

/-- One scan of re.findall over the pattern dot-digits (source lines
681-683): at each position, a dot followed by at least one digit yields the
maximal digit run as a match, with scanning resuming after the run;
otherwise scanning advances one character.  Fuel-indexed (structural);
fuel at least the length of the input makes the scan complete. -/
def findallAux : Nat → List Char → List (List Char)
  | 0, _ => []
  | _, [] => []
  | fuel + 1, c :: rest =>
    if c = '.' then
      if (rest.takeWhile Char.isDigit).isEmpty then findallAux fuel rest
      else rest.takeWhile Char.isDigit ::
        findallAux fuel (rest.drop (rest.takeWhile Char.isDigit).length)
    else findallAux fuel rest

/-- paddingRe.findall(path) for the compiled pattern of GetPaddedPath. -/
def findallDotDigits (s : List Char) : List (List Char) :=
  findallAux s.length s

/-- The start indices at which old occurs as a substring of s. -/
def occIndices (s old : List Char) : List Nat :=
  (List.range (s.length + 1)).filter (fun i => old.isPrefixOf (s.drop i))

/-- RightReplace (source lines 696-698): s.rsplit(old, 1) re-joined with
new, i.e. the last occurrence of old in s (when old occurs) replaced by
new. -/
def RightReplace (s old new : List Char) : List Char :=
  match (occIndices s old).getLast? with
  | none => s
  | some i => s.take i ++ new ++ s.drop (i + old.length)

/-- GetPaddedPath (source lines 680-694): take the digit run of the last
pattern match (if any) and replace its last occurrence in the path by an
equal-width run of '#' characters. -/
def GetPaddedPath (path : List Char) : List Char :=
  match (findallDotDigits path).getLast? with
  | none => path
  | some paddingString =>
    RightReplace path paddingString
      (List.replicate paddingString.length '#')

/-- Python str.split on the newline character (a single-character
separator): splitting the empty string yields one empty field. -/
def splitOnNl : List Char → List (List Char)
  | [] => [[]]
  | c :: rest =>
    if c = '\n' then [] :: splitOnNl rest
    else
      match splitOnNl rest with
      | [] => [[c]]
      | l :: ls => (c :: l) :: ls

/-- The characters of the literal "JobID=". -/
def jobIDTag : List Char := ['J', 'o', 'b', 'I', 'D', '=']

/-- Python line.replace("JobID=", ""): a left-to-right scan deleting each
occurrence of the tag and resuming after it.  Fuel-indexed (structural);
fuel at least the length of the input makes the scan complete. -/
def stripJobIDAux : Nat → List Char → List Char
  | 0, x => x
  | _, [] => []
  | fuel + 1, c :: rest =>
    if jobIDTag.isPrefixOf (c :: rest) then stripJobIDAux fuel (rest.drop 5)
    else c :: stripJobIDAux fuel rest

/-- line.replace("JobID=", "") at adequate fuel. -/
def stripJobID (x : List Char) : List Char := stripJobIDAux x.length x

/-- Glue pieces back together with the tag as separator. -/
def glueTag : List (List Char) → List Char
  | [] => []
  | [p] => p
  | p :: ps => p ++ jobIDTag ++ glueTag ps

/-- GetJobIDFromJobResults (source lines 858-861): split the output into
lines, keep those starting with "JobID=", take the first and delete every
occurrence of "JobID=" from it; none models the IndexError raised when no
line starts with "JobID=". -/
def GetJobIDFromJobResults (results : List Char) : Option (List Char) :=
  match (splitOnNl results).filter (fun l => jobIDTag.isPrefixOf l) with
  | [] => none
  | l :: _ => some (stripJobID l)

/-- The Key=Value line writer of WriteJobFilesAndSubmit (source lines
438-497): each setting is written as its key, '=', its value and a
newline, in sequence. -/
def serializeKVs (kvs : List (List Char × List Char)) : List Char :=
  (kvs.map (fun kv => kv.1 ++ '=' :: kv.2 ++ ['\n'])).flatten

/-- A line-oriented Key=Value reader: split a line at its first '='. -/
def parseLine (line : List Char) : List Char × List Char :=
  (line.takeWhile (fun c => decide (c ≠ '=')),
    (line.dropWhile (fun c => decide (c ≠ '='))).drop 1)

/-- Read a descriptor file back line by line (dropping the final empty
field produced by the trailing newline), splitting each line at its first
'='. -/
def parseKVFile (file : List Char) : List (List Char × List Char) :=
  ((splitOnNl file).dropLast).map parseLine

/-- C8: a node with an empty dependency-name set is ready for any
already-submitted map, including the empty one: the subset check over an
empty set is vacuously true. -/
theorem c8_ready_of_no_deps (n : KNode) (dct : List (String × String))
    (h : n.deps = []) : RenderNodeReady n dct = true := by
  simp [RenderNodeReady, GetAllDependencyNames, h]

/-- Witness for C8 at a concrete node and the empty map. -/
theorem c8_ready_of_no_deps_witness :
    RenderNodeReady ⟨"render1", []⟩ [] = true :=
  c8_ready_of_no_deps ⟨"render1", []⟩ [] rfl

/-- C10: the JobDependencies value is the user field and the generated id
string joined by a comma when both are non-empty, the non-empty one when
exactly one is non-empty, and empty when both are empty. -/
theorem c10_job_dependencies_value (u d : List Char) :
    jobDependenciesValue u d =
      if u = [] then d else if d = [] then u else u ++ ',' :: d := by
  rcases u with _ | ⟨c, u⟩ <;> rcases d with _ | ⟨e, d⟩ <;>
    simp [jobDependenciesValue]

/-- C5 counterexample: a node whose dependency-name set is exactly A and B
but whose dependency list enumerates B first yields "124,123", not the
"123,124" the claim states. -/
theorem c5_counterexample :
    GetDependentIDString ⟨"n", ["B", "A"]⟩ [("A", "123"), ("B", "124")] =
        some "124,123" ∧
      ("124,123" : String) ≠ "123,124" := by
  constructor
  · rfl
  · decide

/-- C5 amended: the ids are joined in the enumeration order of the node's
deduplicated dependency list; when that list is [a, b] with ids x and y,
the result is x ++ "," ++ y (so for enumeration ["A", "B"] with ids "123"
and "124" it is "123,124"). -/
theorem c5_amended (nm a b x y : String) (dct : List (String × String))
    (hab : a ≠ b) (ha : lookupID dct a = some x) (hb : lookupID dct b = some y) :
    GetDependentIDString ⟨nm, [a, b]⟩ dct = some (x ++ "," ++ y) := by
  have hdedup : GetAllDependencyNames ⟨nm, [a, b]⟩ = [a, b] := by
    simp [GetAllDependencyNames, List.dedup_cons_of_not_mem, hab]
  simp [GetDependentIDString, hdedup, collectIDs, ha, hb, joinComma]

/-- Witness for C5 amended at the claim's concrete input, taking the
dependency list enumerated as ["A", "B"]. -/
theorem c5_amended_witness :
    GetDependentIDString ⟨"n", ["A", "B"]⟩ [("A", "123"), ("B", "124")] =
      some ("123" ++ "," ++ "124") :=
  c5_amended "n" "A" "B" "123" "124" [("A", "123"), ("B", "124")]
    (by decide) rfl rfl

/-- C7: when the scene file is unset, or no eligible output nodes exist, or
the frame-range field is empty, SubmitPressed reports an informational
message and performs no submission (no external process is spawned). -/
theorem c7_preflight_aborts (jobIdOf : Nat → String) (fuel : Nat)
    (scene : List Char) (sel : RenderSel) (items : List KNode)
    (frames : List Char)
    (h : scene = [] ∨ items = [] ∨ frames = []) :
    (SubmitPressedModel jobIdOf fuel scene sel items frames).submissions = [] ∧
      (SubmitPressedModel jobIdOf fuel scene sel items frames).abortReason.isSome :=
  by
  by_cases hs : scene = []
  · simp [SubmitPressedModel, hs]
  · by_cases hi : items = []
    · simp [SubmitPressedModel, hs, hi]
    · have hf : frames = [] := by tauto
      simp [SubmitPressedModel, hs, hi, hf]

/-- Witness for C7 with an unset scene file. -/
theorem c7_preflight_aborts_witness :
    (SubmitPressedModel (fun _ => "1") 5 [] .submitAll [⟨"n", []⟩]
          ['1']).submissions = [] ∧
      (SubmitPressedModel (fun _ => "1") 5 [] .submitAll [⟨"n", []⟩]
          ['1']).abortReason.isSome :=
  c7_preflight_aborts (fun _ => "1") 5 [] .submitAll [⟨"n", []⟩] ['1']
    (Or.inl rfl)

theorem dctKeys_append (a b : List (String × String)) :
    dctKeys (a ++ b) = dctKeys a ++ dctKeys b := by
  simp [dctKeys]

theorem dictInsert_of_not_mem {dct : List (String × String)} {k : String}
    (v : String) (h : k ∉ dctKeys dct) :
    dictInsert dct k v = dct ++ [(k, v)] := by
  simp [dictInsert, h]

theorem renderNodeReady_iff (n : KNode) (dct : List (String × String)) :
    RenderNodeReady n dct = true ↔ ∀ d ∈ n.deps, d ∈ dctKeys dct := by
  simp [RenderNodeReady, GetAllDependencyNames, List.all_eq_true,
    List.mem_dedup]

theorem depGoodFrom_append (l : List KNode) :
    ∀ (seen : List String) (m : KNode),
      depGoodFrom seen (l ++ [m]) =
        (depGoodFrom seen l &&
          m.deps.all (fun d => decide (d ∈ seen ++ l.map KNode.name))) := by
  induction l with
  | nil => intro seen m; simp [depGoodFrom]
  | cons n rest ih =>
    intro seen m
    simp [depGoodFrom, ih, Bool.and_assoc]

/-- Submitting a node preserves the distinctness of the remaining node
names together with the dict keys. -/
theorem nodup_after_submit {items : List KNode}
    {dct : List (String × String)} {node : KNode} (v : String)
    (hmem : node ∈ items)
    (hnd : ((items.map KNode.name) ++ dctKeys dct).Nodup) :
    (((items.erase node).map KNode.name) ++
      dctKeys (dct ++ [(node.name, v)])).Nodup := by
  have hperm : items.Perm (node :: items.erase node) :=
    List.perm_cons_erase hmem
  have hpermName :
      (items.map KNode.name).Perm
        (node.name :: (items.erase node).map KNode.name) := by
    simpa using hperm.map KNode.name
  have h1 :
      ((items.map KNode.name) ++ dctKeys dct).Perm
        ((node.name :: (items.erase node).map KNode.name) ++ dctKeys dct) :=
    hpermName.append_right _
  have h2 := h1.nodup hnd
  have h3 : List.Perm
      ((items.erase node).map KNode.name ++ (dctKeys dct ++ [node.name]))
      (node.name :: ((items.erase node).map KNode.name ++ dctKeys dct)) := by
    rw [← List.append_assoc]
    exact List.perm_append_singleton _ _
  have h5 := h3.symm.nodup (by simpa using h2)
  simpa [dctKeys_append, dctKeys] using h5

/-- Run invariant of the submission loop: starting from any state whose
node names and dict keys are mutually distinct, whose dict keys are exactly
the names of the already-submitted sequence, and whose submitted sequence
is dependency-sound, any result state extends the submitted sequence and
the dict monotonically, keeps keys equal to submitted names, keeps the
sequence dependency-sound, and accounts for the working list exactly. -/
theorem submitLoop_inv (jf : Nat → String) :
    ∀ (fuel : Nat) (items : List KNode) (dct : List (String × String))
      (c j : Nat) (order : List KNode) (r : LoopResult),
      ((items.map KNode.name) ++ dctKeys dct).Nodup →
      dctKeys dct = order.map KNode.name →
      depGoodFrom [] order = true →
      submitLoopAux jf fuel items dct c j order = some r →
      ∃ tail extra,
        r.order = order ++ tail ∧
        r.dct = dct ++ extra ∧
        dctKeys r.dct = (order ++ tail).map KNode.name ∧
        depGoodFrom [] (order ++ tail) = true ∧
        (tail ++ r.rem).Perm items ∧
        ((r.rem.map KNode.name) ++ dctKeys r.dct).Nodup := by
  intro fuel
  induction fuel with
  | zero =>
    intro items dct c j order r _ _ _ hrun
    simp [submitLoopAux] at hrun
  | succ fuel ih =>
    intro items dct c j order r hnd hkeys hdep hrun
    simp only [submitLoopAux] at hrun
    split at hrun
    · cases hrun
      exact ⟨[], [], by simp [LoopResult.order], by simp [LoopResult.dct],
        by simpa [LoopResult.dct] using hkeys, by simpa using hdep,
        by simp [LoopResult.rem],
        by simpa [LoopResult.rem, LoopResult.dct] using hnd⟩
    · rename_i node hitem
      have hmem : node ∈ items := List.getElem?_mem hitem
      split at hrun
      · rename_i hready
        have hperm : items.Perm (node :: items.erase node) :=
          List.perm_cons_erase hmem
        have hpermName :
            (items.map KNode.name).Perm
              (node.name :: (items.erase node).map KNode.name) := by
          simpa using hperm.map KNode.name
        have hnameMem : node.name ∈ items.map KNode.name :=
          List.mem_map_of_mem KNode.name hmem
        have hnameNotKeys : node.name ∉ dctKeys dct :=
          (List.disjoint_of_nodup_append hnd) hnameMem
        have hdins :
            dictInsert dct node.name (jf j) = dct ++ [(node.name, jf j)] :=
          dictInsert_of_not_mem _ hnameNotKeys
        have hkeys2 :
            dctKeys (dct ++ [(node.name, jf j)]) =
              (order ++ [node]).map KNode.name := by
          rw [dctKeys_append, hkeys]
          simp [dctKeys]
        have hdep2 : depGoodFrom [] (order ++ [node]) = true := by
          rw [depGoodFrom_append]
          refine (Bool.and_eq_true _ _).mpr ⟨hdep, ?_⟩
          rw [List.all_eq_true]
          intro d hd
          have hmemK := (renderNodeReady_iff node dct).mp hready d hd
          rw [hkeys] at hmemK
          simpa using hmemK
        have hnd2 :
            (((items.erase node).map KNode.name) ++
              dctKeys (dct ++ [(node.name, jf j)])).Nodup :=
          nodup_after_submit (jf j) hmem hnd
        rw [hdins] at hrun
        split at hrun
        · rename_i hemp
          have herase : items.erase node = [] := by simpa using hemp
          cases hrun
          refine ⟨[node], [(node.name, jf j)], by simp [LoopResult.order],
            by simp [LoopResult.dct], ?_, hdep2, ?_, ?_⟩
          · simpa [LoopResult.dct] using hkeys2
          · simpa [LoopResult.rem, herase] using hperm.symm
          · simpa [LoopResult.rem, LoopResult.dct, herase] using hnd2
        · obtain ⟨tail, extra, ho, hd, hk, hg, hp, hn⟩ :=
            ih (items.erase node) (dct ++ [(node.name, jf j)]) 0 (j + 1)
              (order ++ [node]) r hnd2 hkeys2 hdep2 hrun
          refine ⟨node :: tail, (node.name, jf j) :: extra, ?_, ?_, ?_, ?_, ?_, hn⟩
          · rw [ho]; simp
          · rw [hd]; simp
          · simpa using hk
          · simpa using hg
          · simpa using (hp.cons node).trans hperm.symm
      · exact ih items dct (c + 1) j order r hnd hkeys hdep hrun

/-- C4: throughout one run of the submission loop, from any intermediate
state whose node names and dict keys are distinct, whose keys are exactly
the names of the submitted sequence and whose submitted sequence is
dependency-sound, the nodeToID map at the end extends the current map at
its end (entries are only added, never removed or overwritten: the old map
is a prefix and the final keys are distinct), the keys always equal the
names of the submitted nodes, and every node is submitted only after all
its dependencies have assigned job ids. -/
theorem c4_nodeToID_monotone (jf : Nat → String) (fuel : Nat)
    (items : List KNode) (dct : List (String × String)) (c j : Nat)
    (order : List KNode) (r : LoopResult)
    (hnd : ((items.map KNode.name) ++ dctKeys dct).Nodup)
    (hkeys : dctKeys dct = order.map KNode.name)
    (hdep : depGoodFrom [] order = true)
    (hrun : submitLoopAux jf fuel items dct c j order = some r) :
    List.IsPrefix dct (LoopResult.dct r) ∧
      (dctKeys (LoopResult.dct r)).Nodup ∧
      dctKeys (LoopResult.dct r) = (LoopResult.order r).map KNode.name ∧
      depGoodFrom [] (LoopResult.order r) = true := by
  obtain ⟨tail, extra, ho, hd, hk, hg, hp, hn⟩ :=
    submitLoop_inv jf fuel items dct c j order r hnd hkeys hdep hrun
  refine ⟨?_, hn.of_append_right, ?_, ?_⟩
  · rw [hd]; exact List.prefix_append dct extra
  · rw [ho]; exact hk
  · rw [ho]; exact hg

/-- Witness for C4: a one-node run from the empty map. -/
theorem c4_nodeToID_monotone_witness :
    List.IsPrefix ([] : List (String × String))
        (LoopResult.dct (.ok [⟨"a", []⟩] [("a", "1")])) ∧
      (dctKeys (LoopResult.dct (.ok [⟨"a", []⟩] [("a", "1")]))).Nodup ∧
      dctKeys (LoopResult.dct (.ok [⟨"a", []⟩] [("a", "1")])) =
        (LoopResult.order (.ok [⟨"a", []⟩] [("a", "1")])).map KNode.name ∧
      depGoodFrom [] (LoopResult.order (.ok [⟨"a", []⟩] [("a", "1")])) = true :=
  c4_nodeToID_monotone (fun _ => "1") 1 [⟨"a", []⟩] [] 0 0 []
    (.ok [⟨"a", []⟩] [("a", "1")]) (by decide) (by decide) (by decide)
    (by decide)

/-- One loop iteration when the scan index is out of range: the IndexError
exit. -/
theorem submitLoop_step_none (jf : Nat → String) (fuel c j : Nat)
    (items : List KNode) (dct : List (String × String)) (order : List KNode)
    (hn : items[c]? = none) :
    submitLoopAux jf (fuel + 1) items dct c j order =
      some (.indexError order items dct) := by
  simp only [submitLoopAux, hn]

/-- One loop iteration on a node that is not ready: the scan index
advances. -/
theorem submitLoop_step_notReady (jf : Nat → String) (fuel c j : Nat)
    (items : List KNode) (dct : List (String × String)) (order : List KNode)
    (n0 : KNode) (hn0 : items[c]? = some n0)
    (hnr : RenderNodeReady n0 dct = false) :
    submitLoopAux jf (fuel + 1) items dct c j order =
      submitLoopAux jf fuel items dct (c + 1) j order := by
  simp only [submitLoopAux, hn0, hnr]
  simp

/-- One loop iteration submitting the last remaining ready node: normal
exit. -/
theorem submitLoop_step_ready_done (jf : Nat → String) (fuel c j : Nat)
    (items : List KNode) (dct : List (String × String)) (order : List KNode)
    (n0 : KNode) (hn0 : items[c]? = some n0)
    (hr : RenderNodeReady n0 dct = true) (he : items.erase n0 = []) :
    submitLoopAux jf (fuel + 1) items dct c j order =
      some (.ok (order ++ [n0]) (dictInsert dct n0.name (jf j))) := by
  simp only [submitLoopAux, hn0, hr, he]
  simp

/-- One loop iteration submitting a ready node with work remaining: the
scan restarts at the head of the shrunken list. -/
theorem submitLoop_step_ready_cont (jf : Nat → String) (fuel c j : Nat)
    (items : List KNode) (dct : List (String × String)) (order : List KNode)
    (n0 : KNode) (hn0 : items[c]? = some n0)
    (hr : RenderNodeReady n0 dct = true) (he : items.erase n0 ≠ []) :
    submitLoopAux jf (fuel + 1) items dct c j order =
      submitLoopAux jf fuel (items.erase n0)
        (dictInsert dct n0.name (jf j)) 0 (j + 1) (order ++ [n0]) := by
  have hemp : (items.erase n0).isEmpty = false := by
    simpa [List.isEmpty_iff] using he
  simp only [submitLoopAux, hn0, hr, hemp]
  simp

/-- Scanning across a block of not-ready nodes only advances the scan
index, consuming one unit of fuel per step. -/
theorem submitLoop_scan (jf : Nat → String) :
    ∀ (steps fuel c j : Nat) (items : List KNode)
      (dct : List (String × String)) (order : List KNode),
      (∀ i, i < steps → ∃ ni, items[c + i]? = some ni ∧
          RenderNodeReady ni dct = false) →
      submitLoopAux jf (steps + fuel) items dct c j order =
        submitLoopAux jf fuel items dct (c + steps) j order := by
  intro steps
  induction steps with
  | zero => intro fuel c j items dct order _; simp
  | succ steps ih =>
    intro fuel c j items dct order hno
    obtain ⟨n0, hn0, hnr⟩ := hno 0 (Nat.succ_pos _)
    rw [Nat.add_zero] at hn0
    have hstep : steps + 1 + fuel = (steps + fuel) + 1 := by omega
    rw [hstep, submitLoop_step_notReady jf (steps + fuel) c j items dct order
      n0 hn0 hnr]
    have h2 := ih fuel (c + 1) j items dct order (fun i hi => by
      have h3 := hno (i + 1) (by omega)
      have harith : c + (i + 1) = c + 1 + i := by omega
      rwa [harith] at h3)
    rw [h2]
    congr 1
    omega

/-- In an acyclic dependency graph, every nonempty selection from the node
list contains a node (reachable from any chosen start node along dependency
edges) none of whose dependency names belongs to the selection. -/
theorem exists_min_node (items0 : List KNode)
    (hacyc : ∀ a, ¬ Relation.TransGen (DependsOn items0) a a) :
    ∀ (N : Nat) (S : List KNode), S.length ≤ N →
      (∀ n ∈ S, n ∈ items0) → (S.map KNode.name).Nodup →
      ∀ m0 ∈ S, ∃ m ∈ S,
        Relation.ReflTransGen (DependsOn items0) m0.name m.name ∧
        ∀ d ∈ m.deps, d ∉ S.map KNode.name := by
  intro N
  induction N with
  | zero =>
    intro S hlen _ _ m0 hm0
    have := List.length_pos_of_mem hm0
    omega
  | succ N ih =>
    intro S hlen hsub hnd m0 hm0
    by_cases hmin : ∀ d ∈ m0.deps, d ∉ S.map KNode.name
    · exact ⟨m0, hm0, Relation.ReflTransGen.refl, hmin⟩
    · push_neg at hmin
      obtain ⟨d, hd, hdS⟩ := hmin
      obtain ⟨m1, hm1S, hm1name⟩ := List.mem_map.mp hdS
      have hedge : DependsOn items0 m0.name m1.name :=
        ⟨m0, hsub m0 hm0, rfl, by rw [hm1name]; exact hd⟩
      have hne : m1 ≠ m0 := by
        intro h
        exact hacyc m0.name (Relation.TransGen.single (h ▸ hedge))
      have hm1S' : m1 ∈ S.erase m0 := (List.mem_erase_of_ne hne).mpr hm1S
      have hlen' : (S.erase m0).length ≤ N := by
        rw [List.length_erase_of_mem hm0]
        omega
      have hsub' : ∀ n ∈ S.erase m0, n ∈ items0 := fun n hn =>
        hsub n (List.mem_of_mem_erase hn)
      have hnd' : ((S.erase m0).map KNode.name).Nodup :=
        hnd.sublist ((List.erase_sublist m0 S).map KNode.name)
      obtain ⟨m, hmS', hreach, hmmin⟩ := ih (S.erase m0) hlen' hsub' hnd' m1 hm1S'
      refine ⟨m, List.mem_of_mem_erase hmS',
        Relation.ReflTransGen.head hedge hreach, ?_⟩
      intro d2 hd2 hd2S
      have hperm : S.Perm (m0 :: S.erase m0) := List.perm_cons_erase hm0
      have hd2S' : d2 ∈ (m0 :: S.erase m0).map KNode.name :=
        ((hperm.map KNode.name).mem_iff).mp hd2S
      rcases (by simpa using hd2S' :
          d2 = m0.name ∨ ∃ a ∈ S.erase m0, a.name = d2) with h | ⟨a, haS, hname⟩
      · -- d2 is the name of the removed start node: closing a cycle
        have hedge2 : DependsOn items0 m.name m0.name :=
          ⟨m, hsub' m hmS', rfl, by rw [← h]; exact hd2⟩
        apply hacyc m0.name
        exact Relation.TransGen.tail'
          (Relation.ReflTransGen.head hedge hreach) hedge2
      · exact hmmin d2 hd2 (List.mem_map.mpr ⟨a, haS, hname⟩)

/-- The first ready index of a working list containing a ready node: the
node the restarted scan of the loop will find. -/
theorem exists_first_ready (dct : List (String × String)) :
    ∀ S : List KNode, (∃ x ∈ S, RenderNodeReady x dct = true) →
      ∃ k, ∃ hk : k < S.length,
        RenderNodeReady (S.get ⟨k, hk⟩) dct = true ∧
        ∀ i, ∀ hi : i < S.length, i < k →
          RenderNodeReady (S.get ⟨i, hi⟩) dct = false := by
  intro S
  induction S with
  | nil => rintro ⟨x, hx, _⟩; cases hx
  | cons n rest ih =>
    intro hex
    rcases hready : RenderNodeReady n dct with _ | _
    · -- head not ready: recurse into the tail
      have hex' : ∃ x ∈ rest, RenderNodeReady x dct = true := by
        obtain ⟨x, hx, hxr⟩ := hex
        rcases List.mem_cons.mp hx with rfl | hx'
        · rw [hready] at hxr; cases hxr
        · exact ⟨x, hx', hxr⟩
      obtain ⟨k, hk, hkr, hprev⟩ := ih hex'
      refine ⟨k + 1, Nat.succ_lt_succ hk, by simpa using hkr, ?_⟩
      intro i hi hik
      cases i with
      | zero => simpa using hready
      | succ i =>
        have hi' : i < rest.length := Nat.lt_of_succ_lt_succ hi
        have := hprev i hi' (Nat.lt_of_succ_lt_succ hik)
        simpa using this
    · exact ⟨0, Nat.succ_pos _, by simpa using hready,
        fun i hi h0 => absurd h0 (Nat.not_lt_zero i)⟩

/-- Main induction for C1: from any state whose nonempty working list is
drawn from an acyclic node list, whose names together with the dict keys
are distinct, and each of whose dependency names is either already a dict
key or the name of a node still in the working list, the loop reaches
normal completion. -/
theorem submitLoop_total (jf : Nat → String) (items0 : List KNode)
    (hacyc : ∀ a, ¬ Relation.TransGen (DependsOn items0) a a) :
    ∀ (N : Nat) (S : List KNode) (dct : List (String × String))
      (j : Nat) (order : List KNode),
      S.length ≤ N → S ≠ [] →
      (∀ n ∈ S, n ∈ items0) →
      ((S.map KNode.name) ++ dctKeys dct).Nodup →
      (∀ n ∈ S, ∀ d ∈ n.deps, d ∈ dctKeys dct ∨ d ∈ S.map KNode.name) →
      ∃ fuel o2 d2,
        submitLoopAux jf fuel S dct 0 j order = some (.ok o2 d2) := by
  intro N
  induction N with
  | zero =>
    intro S dct j order hlen hne _ _ _
    rcases S with _ | ⟨a, t⟩
    · exact absurd rfl hne
    · simp at hlen
  | succ N ih =>
    intro S dct j order hlen hne hsub hnd hcov
    obtain ⟨m0, hm0⟩ := List.exists_mem_of_ne_nil S hne
    obtain ⟨m, hmS, _, hmin⟩ :=
      exists_min_node items0 hacyc (N + 1) S hlen hsub hnd.of_append_left m0 hm0
    have hready_m : RenderNodeReady m dct = true := by
      rw [renderNodeReady_iff]
      intro d hd
      rcases hcov m hmS d hd with h | h
      · exact h
      · exact absurd h (hmin d hd)
    obtain ⟨k, hklt, hkready, hprevR⟩ :=
      exists_first_ready dct S ⟨m, hmS, hready_m⟩
    have hnode2 : S[k]? = some (S.get ⟨k, hklt⟩) := by
      rw [List.getElem?_eq_getElem hklt, List.get_eq_getElem]
    have hprev : ∀ i, i < k → ∃ ni, S[0 + i]? = some ni ∧
        RenderNodeReady ni dct = false := by
      intro i hik
      have hil : i < S.length := Nat.lt_trans hik hklt
      refine ⟨S.get ⟨i, hil⟩, ?_, hprevR i hil hik⟩
      rw [Nat.zero_add, List.getElem?_eq_getElem hil, List.get_eq_getElem]
    have hmem : S.get ⟨k, hklt⟩ ∈ S := List.get_mem S k hklt
    by_cases herase : S.erase (S.get ⟨k, hklt⟩) = []
    · -- last node: one scan to index k, then the closing submission
      refine ⟨k + 1, order ++ [S.get ⟨k, hklt⟩],
        dictInsert dct (S.get ⟨k, hklt⟩).name (jf j), ?_⟩
      have hscan := submitLoop_scan jf k 1 0 j S dct order hprev
      rw [hscan, Nat.zero_add]
      exact submitLoop_step_ready_done jf 0 k j S dct order _ hnode2 hkready
        herase
    · -- submit the node at index k and recurse on the shrunken list
      have hnameNotKeys : (S.get ⟨k, hklt⟩).name ∉ dctKeys dct :=
        (List.disjoint_of_nodup_append hnd)
          (List.mem_map_of_mem KNode.name hmem)
      have hdins : dictInsert dct (S.get ⟨k, hklt⟩).name (jf j) =
          dct ++ [((S.get ⟨k, hklt⟩).name, jf j)] :=
        dictInsert_of_not_mem _ hnameNotKeys
      have hlen' : (S.erase (S.get ⟨k, hklt⟩)).length ≤ N := by
        rw [List.length_erase_of_mem hmem]
        have := List.length_pos_of_mem hmem
        omega
      have hsub' : ∀ n ∈ S.erase (S.get ⟨k, hklt⟩), n ∈ items0 := fun n hn =>
        hsub n (List.mem_of_mem_erase hn)
      have hnd' := nodup_after_submit (jf j) hmem hnd
      have hperm : S.Perm (S.get ⟨k, hklt⟩ :: S.erase (S.get ⟨k, hklt⟩)) :=
        List.perm_cons_erase hmem
      have hcov' : ∀ n ∈ S.erase (S.get ⟨k, hklt⟩), ∀ d ∈ n.deps,
          d ∈ dctKeys (dct ++ [((S.get ⟨k, hklt⟩).name, jf j)]) ∨
          d ∈ (S.erase (S.get ⟨k, hklt⟩)).map KNode.name := by
        intro n hn d hd
        rcases hcov n (List.mem_of_mem_erase hn) d hd with h | h
        · left
          rw [dctKeys_append]
          exact List.mem_append_left _ h
        · have hd2 : d ∈ (S.get ⟨k, hklt⟩ :: S.erase (S.get ⟨k, hklt⟩)).map
              KNode.name := ((hperm.map KNode.name).mem_iff).mp h
          rcases (by simpa using hd2 :
              d = (S.get ⟨k, hklt⟩).name ∨
                ∃ a ∈ S.erase (S.get ⟨k, hklt⟩), a.name = d) with
            h2 | ⟨a, haS, hname⟩
          · left
            rw [dctKeys_append, h2]
            simp [dctKeys]
          · right
            exact List.mem_map.mpr ⟨a, haS, hname⟩
      obtain ⟨fuelR, o2, d2, hrunR⟩ :=
        ih (S.erase (S.get ⟨k, hklt⟩))
          (dct ++ [((S.get ⟨k, hklt⟩).name, jf j)]) (j + 1)
          (order ++ [S.get ⟨k, hklt⟩]) hlen' herase hsub' hnd' hcov'
      refine ⟨k + (fuelR + 1), o2, d2, ?_⟩
      have hscan := submitLoop_scan jf k (fuelR + 1) 0 j S dct order hprev
      rw [hscan, Nat.zero_add]
      rw [submitLoop_step_ready_cont jf fuelR k j S dct order _ hnode2 hkready
        herase]
      rw [hdins]
      exact hrunR

/-- Reading of depGoodFrom: each dependency of each node of a sound
sequence is either among the initial seen names or the name of an earlier
node of the sequence. -/
theorem depGoodFrom_earlier :
    ∀ (l : List KNode) (seen : List String), depGoodFrom seen l = true →
      ∀ i, ∀ h : i < l.length, ∀ d ∈ (l.get ⟨i, h⟩).deps,
        d ∈ seen ∨
          ∃ j, ∃ hj : j < l.length, j < i ∧ (l.get ⟨j, hj⟩).name = d := by
  intro l
  induction l with
  | nil =>
    intro seen _ i h
    exact absurd h (Nat.not_lt_zero i)
  | cons n rest ih =>
    intro seen hgood i h d hd
    rw [depGoodFrom] at hgood
    obtain ⟨h1, h2⟩ := Bool.and_eq_true_iff.mp hgood
    cases i with
    | zero =>
      left
      have hd' : d ∈ n.deps := by simpa using hd
      have := List.all_eq_true.mp h1 d hd'
      exact of_decide_eq_true this
    | succ i =>
      have h' : i < rest.length := Nat.lt_of_succ_lt_succ h
      have hd' : d ∈ (rest.get ⟨i, h'⟩).deps := by simpa using hd
      rcases ih (seen ++ [n.name]) h2 i h' d hd' with hseen | ⟨j, hj, hji, hname⟩
      · rcases List.mem_append.mp hseen with hs | hs
        · exact Or.inl hs
        · refine Or.inr ⟨0, Nat.succ_pos _, Nat.succ_pos i, ?_⟩
          simpa using (List.mem_singleton.mp hs).symm
      · refine Or.inr ⟨j + 1, Nat.succ_lt_succ hj, Nat.succ_lt_succ hji, ?_⟩
        simpa using hname

/-- C1: on an acyclic dependency graph whose dependency names all refer to
nodes of the (nonempty, uniquely named) working list, the submission loop
terminates normally, submits every node exactly once, and submits every
node only after all the nodes it depends on. -/
theorem c1_loop_submits_all_in_dependency_order (jf : Nat → String)
    (items : List KNode)
    (hnd : (items.map KNode.name).Nodup)
    (hcl : ∀ n ∈ items, ∀ d ∈ n.deps, d ∈ items.map KNode.name)
    (hacyc : ∀ a, ¬ Relation.TransGen (DependsOn items) a a)
    (hne : items ≠ []) :
    ∃ fuel order dct,
      submitLoopAux jf fuel items [] 0 0 [] = some (.ok order dct) ∧
      order.Perm items ∧
      ∀ i, ∀ h : i < order.length, ∀ d ∈ (order.get ⟨i, h⟩).deps,
        ∃ j, ∃ hj : j < order.length, j < i ∧ (order.get ⟨j, hj⟩).name = d := by
  obtain ⟨fuel, o2, d2, hrun⟩ :=
    submitLoop_total jf items hacyc items.length items [] 0 [] le_rfl hne
      (fun n h => h) (by simpa [dctKeys] using hnd) 
      (fun n hn d hd => Or.inr (hcl n hn d hd))
  obtain ⟨tail, extra, ho, hd, hk, hg, hp, hn2⟩ :=
    submitLoop_inv jf fuel items [] 0 0 [] (.ok o2 d2)
      (by simpa [dctKeys] using hnd) (by simp [dctKeys])
      (by rw [depGoodFrom]) hrun
  have ho2 : o2 = tail := by simpa [LoopResult.order] using ho
  have hperm : o2.Perm items := by
    rw [ho2]
    simpa [LoopResult.rem] using hp
  have hgood : depGoodFrom [] o2 = true := by
    have : LoopResult.order (.ok o2 d2) = o2 := rfl
    rw [← this]
    rw [ho]
    simpa using hg
  refine ⟨fuel, o2, d2, hrun, hperm, ?_⟩
  intro i h d hd2
  rcases depGoodFrom_earlier o2 [] hgood i h d hd2 with hmem | hex
  · cases hmem
  · exact hex

/-- The two-node chain used as concrete witness input is acyclic. -/
theorem witness_chain_acyclic :
    ∀ x, ¬ Relation.TransGen
      (DependsOn [⟨"a", ["b"]⟩, ⟨"b", []⟩]) x x := by
  have hstep : ∀ x y, DependsOn [⟨"a", ["b"]⟩, ⟨"b", []⟩] x y →
      x = "a" ∧ y = "b" := by
    intro x y h
    obtain ⟨n, hn, hname, hdep⟩ := h
    rcases (by simpa using hn :
        n = (⟨"a", ["b"]⟩ : KNode) ∨ n = (⟨"b", []⟩ : KNode)) with rfl | rfl
    · refine ⟨hname.symm, ?_⟩
      simpa using hdep
    · simp at hdep
  have htg : ∀ x y, Relation.TransGen
      (DependsOn [⟨"a", ["b"]⟩, ⟨"b", []⟩]) x y → x = "a" ∧ y = "b" := by
    intro x y h
    induction h with
    | single h1 => exact hstep _ _ h1
    | tail _ h2 ih =>
      obtain ⟨hmid, _⟩ := hstep _ _ h2
      obtain ⟨_, hmid2⟩ := ih
      rw [hmid] at hmid2
      exact absurd hmid2 (by decide)
  intro x hx
  obtain ⟨h1, h2⟩ := htg x x hx
  rw [h1] at h2
  exact absurd h2 (by decide)

/-- Witness for C1: a two-node chain (node a depends on node b). -/
theorem c1_loop_submits_all_in_dependency_order_witness :
    ∃ fuel order dct,
      submitLoopAux (fun _ => "1") fuel [⟨"a", ["b"]⟩, ⟨"b", []⟩] [] 0 0 [] =
        some (.ok order dct) ∧
      order.Perm [⟨"a", ["b"]⟩, ⟨"b", []⟩] ∧
      ∀ i, ∀ h : i < order.length, ∀ d ∈ (order.get ⟨i, h⟩).deps,
        ∃ j, ∃ hj : j < order.length, j < i ∧ (order.get ⟨j, hj⟩).name = d :=
  c1_loop_submits_all_in_dependency_order (fun _ => "1")
    [⟨"a", ["b"]⟩, ⟨"b", []⟩] (by decide) (by decide) witness_chain_acyclic
    (by decide)

theorem dctKeys_dictInsert (dct : List (String × String)) (k v : String) :
    dctKeys (dictInsert dct k v) =
      if k ∈ dctKeys dct then dctKeys dct else dctKeys dct ++ [k] := by
  by_cases h : k ∈ dctKeys dct
  · rw [if_pos h]
    simp only [dictInsert]
    rw [if_pos h]
    simp only [dctKeys, List.map_map]
    congr 1
    funext kv
    by_cases hkv : kv.1 = k
    · simp [Function.comp, hkv]
    · simp [Function.comp, hkv]
  · rw [if_neg h, dictInsert_of_not_mem v h, dctKeys_append]
    simp [dctKeys]

/-- The loop always terminates, for a computable amount of fuel: either
normally or with the IndexError.  (Each iteration either advances the scan
index toward the end of the list or strictly shrinks the working list.) -/
theorem submitLoop_terminates (jf : Nat → String) :
    ∀ (M : Nat) (S : List KNode), S.length ≤ M →
      ∀ (K c : Nat), S.length - c ≤ K →
      ∀ (dct : List (String × String)) (j : Nat) (order : List KNode),
      ∃ fuel r, submitLoopAux jf fuel S dct c j order = some r := by
  intro M
  induction M with
  | zero =>
    intro S hlen K c _ dct j order
    have hS : S = [] := List.length_eq_zero.mp (Nat.le_zero.mp hlen)
    subst hS
    exact ⟨1, .indexError order [] dct,
      submitLoop_step_none jf 0 c j [] dct order (by simp)⟩
  | succ M ihM =>
    intro S hlen K
    induction K with
    | zero =>
      intro c hc dct j order
      have hcl : S.length ≤ c := by omega
      exact ⟨1, .indexError order S dct,
        submitLoop_step_none jf 0 c j S dct order (List.getElem?_eq_none hcl)⟩
    | succ K ihK =>
      intro c hc dct j order
      cases hn : S[c]? with
      | none =>
        exact ⟨1, .indexError order S dct,
          submitLoop_step_none jf 0 c j S dct order hn⟩
      | some node =>
        have hclen : c < S.length := by
          by_contra hge
          rw [List.getElem?_eq_none (by omega)] at hn
          cases hn
        cases hready : RenderNodeReady node dct with
        | false =>
          obtain ⟨fuel, r, hrun⟩ := ihK (c + 1) (by omega) dct j order
          refine ⟨fuel + 1, r, ?_⟩
          rw [submitLoop_step_notReady jf fuel c j S dct order node hn hready]
          exact hrun
        | true =>
          have hmem : node ∈ S := List.getElem?_mem hn
          by_cases herase : S.erase node = []
          · exact ⟨1, _, submitLoop_step_ready_done jf 0 c j S dct order node
              hn hready herase⟩
          · have hlen' : (S.erase node).length ≤ M := by
              rw [List.length_erase_of_mem hmem]
              have := List.length_pos_of_mem hmem
              omega
            obtain ⟨fuel, r, hrun⟩ := ihM (S.erase node) hlen'
              ((S.erase node).length) 0 (by omega)
              (dictInsert dct node.name (jf j)) (j + 1) (order ++ [node])
            refine ⟨fuel + 1, r, ?_⟩
            rw [submitLoop_step_ready_cont jf fuel c j S dct order node hn
              hready herase]
            exact hrun

/-- If some node of the working list has a dependency name that can never
enter the dict (it is neither a key already nor the name of any listed
node), the loop never exits normally: any result is the IndexError, with
the blocked node still in the working list. -/
theorem submitLoop_never_ok (jf : Nat → String) :
    ∀ (fuel : Nat) (S : List KNode) (dct : List (String × String))
      (c j : Nat) (order : List KNode) (b : KNode) (d : String)
      (r : LoopResult),
      b ∈ S → d ∈ b.deps → d ∉ S.map KNode.name → d ∉ dctKeys dct →
      submitLoopAux jf fuel S dct c j order = some r →
      ∃ ord2 rem2 dct2, r = .indexError ord2 rem2 dct2 ∧ b ∈ rem2 := by
  intro fuel
  induction fuel with
  | zero =>
    intro S dct c j order b d r _ _ _ _ hrun
    simp [submitLoopAux] at hrun
  | succ fuel ih =>
    intro S dct c j order b d r hbS hd hdS hdK hrun
    simp only [submitLoopAux] at hrun
    split at hrun
    · cases hrun
      exact ⟨order, S, dct, rfl, hbS⟩
    · rename_i node hitem
      split at hrun
      · rename_i hready
        have hbnotready : RenderNodeReady b dct = false := by
          rcases hb : RenderNodeReady b dct with _ | _
          · rfl
          · exact absurd ((renderNodeReady_iff b dct).mp hb d hd) hdK
        have hne : node ≠ b := by
          intro h
          rw [h] at hready
          rw [hbnotready] at hready
          cases hready
        have hbS' : b ∈ S.erase node :=
          (List.mem_erase_of_ne (Ne.symm hne)).mpr hbS
        have hdS' : d ∉ (S.erase node).map KNode.name := by
          intro hmm
          exact hdS (((List.erase_sublist node S).map KNode.name).subset hmm)
        have hdK' : d ∉ dctKeys (dictInsert dct node.name (jf j)) := by
          intro hmm
          rw [dctKeys_dictInsert] at hmm
          by_cases hin : node.name ∈ dctKeys dct
          · rw [if_pos hin] at hmm
            exact hdK hmm
          · rw [if_neg hin] at hmm
            rcases List.mem_append.mp hmm with h2 | h2
            · exact hdK h2
            · have hdn : d = node.name := by simpa using h2
              exact hdS (hdn ▸
                List.mem_map_of_mem KNode.name (List.getElem?_mem hitem))
        split at hrun
        · rename_i hemp
          have herase : S.erase node = [] := by simpa using hemp
          rw [herase] at hbS'
          cases hbS'
        · exact ih (S.erase node) (dictInsert dct node.name (jf j)) 0 (j + 1)
            (order ++ [node]) b d r hbS' hd hdS' hdK' hrun
      · exact ih S dct (c + 1) j order b d r hbS hd hdS hdK hrun

/-- C2 counterexample: on the two-node dependency cycle (node a depends on
node b and node b depends on node a) the loop terminates after one full
scan of the working list, raising the IndexError, rather than looping
forever as the claim states. -/
theorem c2_counterexample :
    submitLoopAux (fun _ => "1") 3 [⟨"a", ["b"]⟩, ⟨"b", ["a"]⟩] [] 0 0 [] =
      some (.indexError [] [⟨"a", ["b"]⟩, ⟨"b", ["a"]⟩] []) := by
  decide

/-- In a dependency-sound sequence, every dependency of every member is
the name of some member. -/
theorem depGood_deps_in_names (l : List KNode)
    (hg : depGoodFrom [] l = true) (b : KNode) (hb : b ∈ l) (d : String)
    (hd : d ∈ b.deps) : d ∈ l.map KNode.name := by
  obtain ⟨⟨i, hi⟩, hget⟩ := List.mem_iff_get.mp hb
  rcases depGoodFrom_earlier l [] hg i hi d (by rw [hget]; exact hd) with
    hmem | ⟨j, hj, _, hname⟩
  · cases hmem
  · exact List.mem_map.mpr ⟨l.get ⟨j, hj⟩, List.get_mem l j hj, hname⟩

/-- A dependency-sound sequence whose names are distinct (and disjoint
from the initially seen names) induces no dependency cycle: each member
depends only on strictly earlier names. -/
theorem depGood_acyclic :
    ∀ (l : List KNode) (seen : List String),
      (seen ++ l.map KNode.name).Nodup → depGoodFrom seen l = true →
      ∀ x, ¬ Relation.TransGen (DependsOn l) x x := by
  intro l
  induction l with
  | nil =>
    intro seen _ _ x hx
    have hno : ∀ a b, ¬ DependsOn ([] : List KNode) a b := by
      rintro a b ⟨node, hnode, _, _⟩
      cases hnode
    have haux : ∀ a b,
        Relation.TransGen (DependsOn ([] : List KNode)) a b → False := by
      intro a b h
      induction h with
      | single h1 => exact hno _ _ h1
      | tail _ h2 _ => exact hno _ _ h2
    exact haux x x hx
  | cons n rest ih =>
    intro seen hnd hgood x hx
    rw [depGoodFrom] at hgood
    obtain ⟨h1, h2⟩ := Bool.and_eq_true_iff.mp hgood
    have hdeps_seen : ∀ d ∈ n.deps, d ∈ seen := fun d hd =>
      of_decide_eq_true (List.all_eq_true.mp h1 d hd)
    have hno_seen_src : ∀ a ∈ seen, ∀ b, ¬ DependsOn (n :: rest) a b := by
      rintro a ha b ⟨node, hnode, hname, _⟩
      exact (List.disjoint_of_nodup_append hnd) ha
        (hname ▸ List.mem_map_of_mem KNode.name hnode)
    have hedge_case : ∀ a b, DependsOn (n :: rest) a b →
        (a = n.name ∧ b ∈ seen) ∨ DependsOn rest a b := by
      rintro a b ⟨node, hnode, hname, hbdep⟩
      rcases List.mem_cons.mp hnode with rfl | hmem
      · exact Or.inl ⟨hname.symm, hdeps_seen b hbdep⟩
      · exact Or.inr ⟨node, hmem, hname, hbdep⟩
    have hchain : ∀ a b, Relation.TransGen (DependsOn (n :: rest)) a b →
        Relation.TransGen (DependsOn rest) a b ∨ b ∈ seen := by
      intro a b h
      induction h with
      | single h1 =>
        rcases hedge_case _ _ h1 with ⟨_, hbs⟩ | he
        · exact Or.inr hbs
        · exact Or.inl (Relation.TransGen.single he)
      | tail h1 h2 ihc =>
        rcases ihc with hl | hcs
        · rcases hedge_case _ _ h2 with ⟨_, hbs⟩ | he
          · exact Or.inr hbs
          · exact Or.inl (hl.tail he)
        · exact absurd h2 (hno_seen_src _ hcs _)
    have hfrom_seen : ∀ a b,
        Relation.TransGen (DependsOn (n :: rest)) a b → a ∉ seen := by
      intro a b h
      induction h with
      | single h1 => exact fun ha => hno_seen_src _ ha _ h1
      | tail _ _ ihs => exact ihs
    rcases hchain x x hx with hcyc | hxs
    · have hnd' : ((seen ++ [n.name]) ++ rest.map KNode.name).Nodup := by
        rw [List.append_assoc, List.singleton_append]
        simpa using hnd
      exact ih (seen ++ [n.name]) hnd' h2 x hcyc
    · exact hfrom_seen x x hx hxs

/-- C2 amended: the submission loop always terminates within a finite fuel
bound; and when some node of the (uniquely named) working list has a
dependency name that never appears in the already-submitted map -- since
the map only grows (the final map extends every intermediate one), this is
exactly a name absent from the final map of the run -- the loop terminates
abnormally: items[currNode] raises the uncaught IndexError once the scan
index runs past the end of the working list, and the blocked node is never
submitted.  In particular, every node lying on a dependency cycle is
blocked this way. -/
theorem c2_amended_loop_fails_not_spins (jf : Nat → String)
    (items : List KNode) (hnd : (items.map KNode.name).Nodup) :
    (∃ fuel r, submitLoopAux jf fuel items [] 0 0 [] = some r) ∧
    (∀ fuel r b d, submitLoopAux jf fuel items [] 0 0 [] = some r →
      b ∈ items → d ∈ b.deps → d ∉ dctKeys (LoopResult.dct r) →
      ∃ ord2 rem2 dct2, r = .indexError ord2 rem2 dct2 ∧ b ∈ rem2) ∧
    (∀ b, b ∈ items →
      Relation.TransGen (DependsOn items) b.name b.name →
      ∃ fuel ord2 rem2 dct2,
        submitLoopAux jf fuel items [] 0 0 [] =
          some (.indexError ord2 rem2 dct2) ∧ b ∈ rem2) := by
  refine ⟨submitLoop_terminates jf items.length items le_rfl items.length 0
      (by omega) [] 0 [], ?_, ?_⟩
  · intro fuel r b d hrun hb hd hdK
    obtain ⟨tail2, extra, ho, hdct, hk, hg, hp, hn2⟩ :=
      submitLoop_inv jf fuel items [] 0 0 [] r
        (by simpa [dctKeys] using hnd) (by simp [dctKeys])
        (by rw [depGoodFrom]) hrun
    have hgood : depGoodFrom [] tail2 = true := by simpa using hg
    have hkeys : dctKeys (LoopResult.dct r) = tail2.map KNode.name := by
      simpa using hk
    have hbtail : b ∉ tail2 := fun hbt =>
      (hkeys ▸ hdK) (depGood_deps_in_names tail2 hgood b hbt d hd)
    cases r with
    | ok o2 d2 =>
      have hperm : (tail2 ++ ([] : List KNode)).Perm items := by
        simpa [LoopResult.rem] using hp
      have hbt : b ∈ tail2 := by
        have hmem := (hperm.mem_iff).mpr hb
        simpa using hmem
      exact absurd hbt hbtail
    | indexError o2 r2 d2 =>
      refine ⟨o2, r2, d2, rfl, ?_⟩
      have hperm : (tail2 ++ r2).Perm items := by
        simpa [LoopResult.rem] using hp
      rcases List.mem_append.mp ((hperm.mem_iff).mpr hb) with h | h
      · exact absurd h hbtail
      · exact h
  · intro b hb hcyc
    obtain ⟨fuel, r, hrun⟩ :=
      submitLoop_terminates jf items.length items le_rfl items.length 0
        (by omega) [] 0 []
    obtain ⟨tail2, extra, ho, hdct, hk, hg, hp, hn2⟩ :=
      submitLoop_inv jf fuel items [] 0 0 [] r
        (by simpa [dctKeys] using hnd) (by simp [dctKeys])
        (by rw [depGoodFrom]) hrun
    have hgood : depGoodFrom [] tail2 = true := by simpa using hg
    have hkeys : dctKeys (LoopResult.dct r) = tail2.map KNode.name := by
      simpa using hk
    have htailnd : (tail2.map KNode.name).Nodup := by
      have hx := hn2.of_append_right
      rwa [hkeys] at hx
    have htail_sub : ∀ t ∈ tail2, t ∈ items := fun t ht =>
      (hp.mem_iff).mp (List.mem_append_left _ ht)
    have hstep : ∀ u v, DependsOn items u v → u ∈ tail2.map KNode.name →
        DependsOn tail2 u v ∧ v ∈ tail2.map KNode.name := by
      rintro u v ⟨node, hnode, hname, hv⟩ hu
      obtain ⟨t, ht, htname⟩ := List.mem_map.mp hu
      have hteq : node = t :=
        List.inj_on_of_nodup_map hnd hnode (htail_sub t ht)
          (by rw [hname, htname])
      subst hteq
      exact ⟨⟨node, ht, hname, hv⟩,
        depGood_deps_in_names tail2 hgood node ht v hv⟩
    have hlift : ∀ u w, Relation.TransGen (DependsOn items) u w →
        u ∈ tail2.map KNode.name →
        Relation.TransGen (DependsOn tail2) u w ∧
          w ∈ tail2.map KNode.name := by
      intro u w h
      induction h with
      | single h1 =>
        intro hu
        obtain ⟨he, hv⟩ := hstep _ _ h1 hu
        exact ⟨Relation.TransGen.single he, hv⟩
      | tail h1 h2 ihl =>
        intro hu
        obtain ⟨ht, hc⟩ := ihl hu
        obtain ⟨he, hv⟩ := hstep _ _ h2 hc
        exact ⟨ht.tail he, hv⟩
    have hbtail : b ∉ tail2 := by
      intro hbt
      have hcyc2 : Relation.TransGen (DependsOn tail2) b.name b.name :=
        (hlift b.name b.name hcyc
          (List.mem_map_of_mem KNode.name hbt)).1
      exact depGood_acyclic tail2 [] (by simpa using htailnd) hgood
        b.name hcyc2
    cases r with
    | ok o2 d2 =>
      have hperm : (tail2 ++ ([] : List KNode)).Perm items := by
        simpa [LoopResult.rem] using hp
      have hbt : b ∈ tail2 := by
        have hmem := (hperm.mem_iff).mpr hb
        simpa using hmem
      exact absurd hbt hbtail
    | indexError o2 r2 d2 =>
      refine ⟨fuel, o2, r2, d2, hrun, ?_⟩
      have hperm : (tail2 ++ r2).Perm items := by
        simpa [LoopResult.rem] using hp
      rcases List.mem_append.mp ((hperm.mem_iff).mpr hb) with h | h
      · exact absurd h hbtail
      · exact h

/-- Witness for C2 amended: the two-node dependency cycle, applied through
the cycle clause. -/
theorem c2_amended_loop_fails_not_spins_witness :
    ∃ fuel ord2 rem2 dct2,
      submitLoopAux (fun _ => "1") fuel [⟨"a", ["b"]⟩, ⟨"b", ["a"]⟩] [] 0 0
          [] =
        some (.indexError ord2 rem2 dct2) ∧
      (⟨"a", ["b"]⟩ : KNode) ∈ rem2 := by
  have e1 : DependsOn [⟨"a", ["b"]⟩, ⟨"b", ["a"]⟩] "a" "b" :=
    ⟨⟨"a", ["b"]⟩, by decide, rfl, by decide⟩
  have e2 : DependsOn [⟨"a", ["b"]⟩, ⟨"b", ["a"]⟩] "b" "a" :=
    ⟨⟨"b", ["a"]⟩, by decide, rfl, by decide⟩
  exact (c2_amended_loop_fails_not_spins (fun _ => "1")
      [⟨"a", ["b"]⟩, ⟨"b", ["a"]⟩] (by decide)).2.2
    ⟨"a", ["b"]⟩ (by decide)
    (Relation.TransGen.tail (Relation.TransGen.single e1) e2)

theorem mem_of_getLast?_eq_some {α : Type} {l : List α} {d : α}
    (h : l.getLast? = some d) : d ∈ l := by
  have h1 : l ≠ [] := by
    rintro rfl
    simp at h
  rw [List.getLast?_eq_getLast l h1] at h
  exact (Option.some.inj h) ▸ List.getLast_mem h1

theorem pairwise_lt_le_getLast? :
    ∀ l : List Nat, l.Pairwise (· < ·) →
      ∀ y, l.getLast? = some y → ∀ x ∈ l, x ≤ y := by
  intro l
  induction l with
  | nil =>
    intro _ y hy
    cases hy
  | cons a t ih =>
    intro hp y hy x hx
    cases t with
    | nil =>
      simp at hy hx
      omega
    | cons b t2 =>
      rw [List.getLast?_cons_cons] at hy
      rcases List.mem_cons.mp hx with rfl | hxt
      · have h1 : ∀ z ∈ b :: t2, x < z := (List.pairwise_cons.mp hp).1
        have h2 : y ∈ b :: t2 := mem_of_getLast?_eq_some hy
        exact Nat.le_of_lt (h1 y h2)
      · exact ih (List.pairwise_cons.mp hp).2 y hy x hxt

theorem mem_occIndices (s old : List Char) (i : Nat) :
    i ∈ occIndices s old ↔ i ≤ s.length ∧ List.IsPrefix old (s.drop i) := by
  simp [occIndices, Nat.lt_succ_iff]

theorem occIndices_sorted (s old : List Char) :
    (occIndices s old).Pairwise (· < ·) :=
  (List.pairwise_lt_range _).filter _

theorem occIndices_ne_nil {s old : List Char} (hne : old ≠ []) (i : Nat)
    (h : List.IsPrefix old (s.drop i)) : occIndices s old ≠ [] := by
  have hle : i ≤ s.length := by
    by_contra hgt
    push_neg at hgt
    rw [List.drop_eq_nil_of_le (Nat.le_of_lt hgt)] at h
    exact hne (List.prefix_nil.mp h)
  intro hemp
  have hmem : i ∈ occIndices s old := (mem_occIndices s old i).mpr ⟨hle, h⟩
  rw [hemp] at hmem
  cases hmem

/-- Every match of the dot-digits scan is a nonempty run occurring as a
substring of the input. -/
theorem findallAux_matches :
    ∀ (fuel : Nat) (s : List Char), ∀ d ∈ findallAux fuel s,
      d ≠ [] ∧ ∃ i, List.IsPrefix d (s.drop i) := by
  intro fuel
  induction fuel with
  | zero =>
    intro s d hd
    simp [findallAux] at hd
  | succ fuel ih =>
    intro s d hd
    match s with
    | [] => simp [findallAux] at hd
    | c :: rest =>
      rw [findallAux] at hd
      by_cases hc : c = '.'
      · rw [if_pos hc] at hd
        by_cases hdig : (rest.takeWhile Char.isDigit).isEmpty
        · rw [if_pos hdig] at hd
          obtain ⟨hne, i, hp⟩ := ih rest d hd
          exact ⟨hne, i + 1, by simpa using hp⟩
        · rw [if_neg hdig] at hd
          rcases List.mem_cons.mp hd with rfl | hd2
          · refine ⟨by simpa [List.isEmpty_iff] using hdig, 1, ?_⟩
            simpa using List.takeWhile_prefix Char.isDigit
          · obtain ⟨hne, i, hp⟩ :=
              ih (rest.drop (rest.takeWhile Char.isDigit).length) d hd2
            rw [List.drop_drop] at hp
            exact ⟨hne, (rest.takeWhile Char.isDigit).length + i + 1,
              by simpa using hp⟩
      · rw [if_neg hc] at hd
        obtain ⟨hne, i, hp⟩ := ih rest d hd
        exact ⟨hne, i + 1, by simpa using hp⟩

/-- C3 counterexample: in "a.12.x12" the last (and only) dot-prefixed digit
run found by the pattern match is the "12" after "a.", but the replacement
is applied to the last occurrence of the string "12", which follows "x"
and is not dot-prefixed: the result is "a.12.x##", not "a.##.x12" as the
claim's general clause predicts. -/
theorem c3_counterexample :
    GetPaddedPath ("a.12.x12".toList) = ("a.12.x##".toList) ∧
      ("a.12.x##".toList) ≠ ("a.##.x12".toList) := by
  constructor
  · decide
  · decide

/-- C3 amended: "render.0101.exr" maps to "render.####.exr" and
"render.exr" is unchanged; in general, when the pattern matches, the path
splits as pre ++ d ++ suf at the last substring occurrence of the digit
run d of the last match (an occurrence that need not be the dot-prefixed
matched one), and exactly that occurrence is replaced by an equal-width
run of '#', the rest of the path unchanged. -/
theorem c3_amended_padding :
    (∀ path : List Char,
      ((findallDotDigits path).getLast? = none → GetPaddedPath path = path) ∧
      (∀ d, (findallDotDigits path).getLast? = some d →
        ∃ pre suf, path = pre ++ d ++ suf ∧
          GetPaddedPath path =
            pre ++ List.replicate d.length '#' ++ suf ∧
          ∀ i, ¬ List.IsPrefix d ((d ++ suf).drop (i + 1)))) ∧
    GetPaddedPath ("render.0101.exr".toList) = ("render.####.exr".toList) ∧
    GetPaddedPath ("render.exr".toList) = ("render.exr".toList) := by
  refine ⟨?_, by decide, by decide⟩
  intro path
  constructor
  · intro hnone
    simp only [GetPaddedPath, hnone]
  · intro d hlast
    have hdmem : d ∈ findallDotDigits path := mem_of_getLast?_eq_some hlast
    obtain ⟨hdne, i1, hocc1⟩ :=
      findallAux_matches path.length path d hdmem
    have hoccne : occIndices path d ≠ [] := occIndices_ne_nil hdne i1 hocc1
    have hlast2 : (occIndices path d).getLast? =
        some ((occIndices path d).getLast hoccne) :=
      List.getLast?_eq_getLast _ hoccne
    set i0 := (occIndices path d).getLast hoccne with hi0
    have hi0mem : i0 ∈ occIndices path d := mem_of_getLast?_eq_some hlast2
    obtain ⟨hi0le, hi0pre⟩ := (mem_occIndices path d i0).mp hi0mem
    obtain ⟨suf, hsuf⟩ := hi0pre
    refine ⟨path.take i0, suf, ?_, ?_, ?_⟩
    · rw [List.append_assoc, hsuf, List.take_append_drop]
    · simp only [GetPaddedPath, hlast, RightReplace, hlast2]
      congr 1
      have h1 : path.drop (i0 + d.length) = (path.drop i0).drop d.length := by
        rw [List.drop_drop, Nat.add_comm]
      rw [h1, ← hsuf, List.drop_left]
    · intro i hpre2
      have hdrop : (d ++ suf).drop (i + 1) = path.drop (i0 + (i + 1)) := by
        rw [hsuf, List.drop_drop, Nat.add_comm]
      rw [hdrop] at hpre2
      have hle2 : i0 + (i + 1) ≤ path.length := by
        by_contra hgt
        push_neg at hgt
        rw [List.drop_eq_nil_of_le (Nat.le_of_lt hgt)] at hpre2
        exact hdne (List.prefix_nil.mp hpre2)
      have hmem2 : i0 + (i + 1) ∈ occIndices path d :=
        (mem_occIndices path d _).mpr ⟨hle2, hpre2⟩
      have := pairwise_lt_le_getLast? (occIndices path d)
        (occIndices_sorted path d) i0 hlast2 (i0 + (i + 1)) hmem2
      omega

/-- Witness for C3 amended at the path "x.9". -/
theorem c3_amended_padding_witness :
    ∃ pre suf, ("x.9".toList) = pre ++ ['9'] ++ suf ∧
      GetPaddedPath ("x.9".toList) =
        pre ++ List.replicate (['9'] : List Char).length '#' ++ suf ∧
      ∀ i, ¬ List.IsPrefix ['9'] ((['9'] ++ suf).drop (i + 1)) :=
  (c3_amended_padding.1 ("x.9".toList)).2 ['9'] (by decide)

theorem glueTag_cons (p : List Char) (ps : List (List Char)) (h : ps ≠ []) :
    glueTag (p :: ps) = p ++ jobIDTag ++ glueTag ps := by
  rcases ps with _ | ⟨q, qs⟩
  · exact absurd rfl h
  · rfl

theorem find?_eq_head?_filter {α : Type} (p : α → Bool) :
    ∀ l : List α, l.find? p = (l.filter p).head? := by
  intro l
  induction l with
  | nil => rfl
  | cons a t ih =>
    by_cases h : p a = true
    · rw [List.find?_cons_of_pos t h, List.filter_cons_of_pos h]
      rfl
    · rw [List.find?_cons_of_neg t (by simpa using h),
        List.filter_cons_of_neg (by simpa using h)]
      exact ih

/-- Structure of the left-to-right replace: the input decomposes into
tag-free pieces separated by the occurrences that were deleted, and the
output is the concatenation of the pieces. -/
theorem stripJobIDAux_decomp :
    ∀ (fuel : Nat) (x : List Char), x.length ≤ fuel →
      ∃ pieces : List (List Char), pieces ≠ [] ∧
        x = glueTag pieces ∧
        (∀ p ∈ pieces, ∀ i, ¬ List.IsPrefix jobIDTag (p.drop i)) ∧
        stripJobIDAux fuel x = pieces.flatten := by
  intro fuel
  induction fuel with
  | zero =>
    intro x hlen
    have hx : x = [] := List.length_eq_zero.mp (Nat.le_zero.mp hlen)
    subst hx
    refine ⟨[[]], by simp, rfl, ?_, rfl⟩
    intro p hp i hpre
    rcases List.mem_singleton.mp hp with rfl
    rw [List.drop_nil] at hpre
    have := List.prefix_nil.mp hpre
    simp [jobIDTag] at this
  | succ fuel ih =>
    intro x hlen
    match x with
    | [] =>
      refine ⟨[[]], by simp, rfl, ?_, rfl⟩
      intro p hp i hpre
      rcases List.mem_singleton.mp hp with rfl
      rw [List.drop_nil] at hpre
      have := List.prefix_nil.mp hpre
      simp [jobIDTag] at this
    | c :: rest =>
      by_cases hpre : jobIDTag.isPrefixOf (c :: rest) = true
      · have hpre' : List.IsPrefix jobIDTag (c :: rest) := by simpa using hpre
        obtain ⟨r, hr⟩ := hpre'
        have hrdrop : rest.drop 5 = r := by
          have h6 : (jobIDTag ++ r).drop 6 = r := by
            have h7 := List.drop_left jobIDTag r
            rw [show jobIDTag.length = 6 from rfl] at h7
            exact h7
          rw [hr] at h6
          simpa using h6
        have hlen' : (rest.drop 5).length ≤ fuel := by
          rw [List.length_drop]
          simp at hlen
          omega
        obtain ⟨pieces, hne, hglue, hfree, hstrip⟩ := ih (rest.drop 5) hlen'
        have hglue2 : r = glueTag pieces := by
          rw [← hrdrop]
          exact hglue
        refine ⟨[] :: pieces, by simp, ?_, ?_, ?_⟩
        · rw [glueTag_cons [] pieces hne, List.nil_append, ← hglue2]
          exact hr.symm
        · intro p hp i hpre3
          rcases List.mem_cons.mp hp with rfl | hp2
          · rw [List.drop_nil] at hpre3
            have := List.prefix_nil.mp hpre3
            simp [jobIDTag] at this
          · exact hfree p hp2 i hpre3
        · rw [stripJobIDAux, if_pos hpre]
          simpa using hstrip
      · have hlen' : rest.length ≤ fuel := by
          simp at hlen
          omega
        obtain ⟨pieces, hne, hglue, hfree, hstrip⟩ := ih rest hlen'
        rcases pieces with _ | ⟨q, qs⟩
        · exact absurd rfl hne
        have hqpre : List.IsPrefix q rest := by
          rw [hglue]
          rcases qs with _ | ⟨q2, qs2⟩
          · exact List.prefix_refl q
          · rw [glueTag_cons q (q2 :: qs2) (by simp)]
            exact (List.prefix_append q jobIDTag).trans
              (List.prefix_append (q ++ jobIDTag) (glueTag (q2 :: qs2)))
        refine ⟨(c :: q) :: qs, by simp, ?_, ?_, ?_⟩
        · rcases qs with _ | ⟨q2, qs2⟩
          · have hrq : rest = q := by simpa [glueTag] using hglue
            rw [hrq]
            rfl
          · rw [glueTag_cons (c :: q) (q2 :: qs2) (by simp)]
            rw [glueTag_cons q (q2 :: qs2) (by simp)] at hglue
            rw [hglue]
            simp
        · intro p hp i hpre3
          rcases List.mem_cons.mp hp with rfl | hp2
          · cases i with
            | zero =>
              rw [List.drop_zero] at hpre3
              have hcp : List.IsPrefix (c :: q) (c :: rest) :=
                List.cons_prefix_cons.mpr ⟨rfl, hqpre⟩
              exact hpre (by simpa using hpre3.trans hcp)
            | succ i =>
              exact hfree q (List.mem_cons_self q qs) i (by simpa using hpre3)
          · exact hfree p (List.mem_cons_of_mem q hp2) i hpre3
        · rw [stripJobIDAux, if_neg hpre]
          rw [hstrip]
          simp

/-- C9: GetJobIDFromJobResults fails (the uncaught IndexError) exactly when
no line of the result string starts with "JobID="; otherwise it returns the
first such line with every occurrence of "JobID=" deleted: that line
decomposes into tag-free pieces separated by the occurrences of "JobID=",
and the returned value is the concatenation of those pieces. -/
theorem c9_getJobID (results : List Char) :
    (GetJobIDFromJobResults results = none ↔
      ∀ l ∈ splitOnNl results, ¬ jobIDTag.isPrefixOf l) ∧
    (∀ l,
      (splitOnNl results).find? (fun s => jobIDTag.isPrefixOf s) = some l →
      ∃ pieces : List (List Char), pieces ≠ [] ∧
        l = glueTag pieces ∧
        (∀ p ∈ pieces, ∀ i, ¬ List.IsPrefix jobIDTag (p.drop i)) ∧
        GetJobIDFromJobResults results = some pieces.flatten) := by
  constructor
  · constructor
    · intro hnone l hl hpre2
      rw [GetJobIDFromJobResults] at hnone
      have hlf : l ∈ (splitOnNl results).filter
          (fun s => jobIDTag.isPrefixOf s) :=
        List.mem_filter.mpr ⟨hl, hpre2⟩
      rcases hfil : (splitOnNl results).filter
          (fun s => jobIDTag.isPrefixOf s) with _ | ⟨x, xs⟩
      · rw [hfil] at hlf
        cases hlf
      · rw [hfil] at hnone
        simp at hnone
    · intro hall
      rw [GetJobIDFromJobResults]
      have hfil : (splitOnNl results).filter
          (fun l => jobIDTag.isPrefixOf l) = [] :=
        List.filter_eq_nil_iff.mpr (fun a ha => by simpa using hall a ha)
      rw [hfil]
  · intro l hfind
    have hhead : ((splitOnNl results).filter
        (fun s => jobIDTag.isPrefixOf s)).head? = some l := by
      rw [← find?_eq_head?_filter]
      exact hfind
    rcases hfil : (splitOnNl results).filter
        (fun s => jobIDTag.isPrefixOf s) with _ | ⟨x, xs⟩
    · rw [hfil] at hhead
      cases hhead
    · rw [hfil] at hhead
      have hxl : x = l := by simpa using hhead
      subst hxl
      obtain ⟨pieces, hne, hglue, hfree, hstrip⟩ :=
        stripJobIDAux_decomp x.length x le_rfl
      refine ⟨pieces, hne, hglue, hfree, ?_⟩
      rw [GetJobIDFromJobResults, hfil]
      simp [stripJobID, hstrip]

/-- Witness for C9 on a result whose second line is "JobID=abc". -/
theorem c9_getJobID_witness :
    ∃ pieces : List (List Char), pieces ≠ [] ∧
      ("JobID=abc".toList) = glueTag pieces ∧
      (∀ p ∈ pieces, ∀ i, ¬ List.IsPrefix jobIDTag (p.drop i)) ∧
      GetJobIDFromJobResults ("x\nJobID=abc".toList) =
        some pieces.flatten :=
  (c9_getJobID ("x\nJobID=abc".toList)).2 ("JobID=abc".toList) (by decide)

theorem splitOnNl_ne_nil : ∀ x : List Char, splitOnNl x ≠ [] := by
  intro x
  induction x with
  | nil => simp [splitOnNl]
  | cons c rest ih =>
    rw [splitOnNl]
    by_cases hc : c = '\n'
    · rw [if_pos hc]
      simp
    · rw [if_neg hc]
      rcases h : splitOnNl rest with _ | ⟨l, ls⟩
    <;> simp

theorem splitOnNl_append {a : List Char} (b : List Char)
    (ha : '\n' ∉ a) : splitOnNl (a ++ '\n' :: b) = a :: splitOnNl b := by
  induction a with
  | nil => simp [splitOnNl]
  | cons c a2 ih =>
    have hc : c ≠ '\n' := fun h => ha (by simp [h])
    have ha2 : '\n' ∉ a2 := fun h => ha (by simp [h])
    rw [List.cons_append, splitOnNl, if_neg hc, ih ha2]

theorem takeWhile_until_eq (v : List Char) :
    ∀ k : List Char, '=' ∉ k →
      (k ++ '=' :: v).takeWhile (fun c => decide (c ≠ '=')) = k ∧
      (k ++ '=' :: v).dropWhile (fun c => decide (c ≠ '=')) = '=' :: v := by
  intro k
  induction k with
  | nil => intro _; simp [List.takeWhile, List.dropWhile]
  | cons c k2 ih =>
    intro hk
    have hc : c ≠ '=' := fun h => hk (by simp [h])
    have hk2 : '=' ∉ k2 := fun h => hk (by simp [h])
    obtain ⟨h1, h2⟩ := ih hk2
    constructor
    · rw [List.cons_append, List.takeWhile_cons]
      have h1' := h1
      simp [hc] at h1' ⊢
      exact h1'
    · rw [List.cons_append, List.dropWhile_cons]
      have h2' := h2
      simp [hc] at h2' ⊢
      exact h2'

theorem parseLine_key_value {k : List Char} (v : List Char) (hk : '=' ∉ k) :
    parseLine (k ++ '=' :: v) = (k, v) := by
  obtain ⟨h1, h2⟩ := takeWhile_until_eq v k hk
  simp only [parseLine]
  rw [h1, h2]
  rfl

/-- C6 counterexample: a value containing a newline is not recovered by a
line-oriented reader: the comment value "a\nb" reads back as the two lines
"Comment=a" and "b". -/
theorem c6_counterexample :
    parseKVFile (serializeKVs [("Comment".toList, "a\nb".toList)]) ≠
      [("Comment".toList, "a\nb".toList)] := by
  decide

/-- C6 amended: values written into a job descriptor file are exactly
recovered by a line-oriented Key=Value reader splitting each line at its
first '=', provided the keys contain no newline and no '=' (as the fixed
key vocabulary does) and the values contain no newline; a value containing
a newline breaks the round trip. -/
theorem c6_amended_roundtrip (kvs : List (List Char × List Char))
    (hok : ∀ kv ∈ kvs, '\n' ∉ kv.1 ∧ '=' ∉ kv.1 ∧ '\n' ∉ kv.2) :
    parseKVFile (serializeKVs kvs) = kvs := by
  induction kvs with
  | nil => rfl
  | cons kv rest ih =>
    obtain ⟨hk1, hk2, hv⟩ := hok kv (List.mem_cons_self kv rest)
    have hrest : ∀ kv2 ∈ rest, '\n' ∉ kv2.1 ∧ '=' ∉ kv2.1 ∧ '\n' ∉ kv2.2 :=
      fun kv2 h2 => hok kv2 (List.mem_cons_of_mem kv h2)
    have hser : serializeKVs (kv :: rest) =
        (kv.1 ++ '=' :: kv.2) ++ '\n' :: serializeKVs rest := by
      simp [serializeKVs]
    have hnomem : '\n' ∉ kv.1 ++ '=' :: kv.2 := by
      intro hmm
      rcases List.mem_append.mp hmm with h | h
      · exact hk1 h
      · rcases List.mem_cons.mp h with h2 | h2
        · exact absurd h2 (by decide)
        · exact hv h2
    rw [hser]
    simp only [parseKVFile]
    rw [splitOnNl_append (serializeKVs rest) hnomem]
    rw [List.dropLast_cons_of_ne_nil (splitOnNl_ne_nil _), List.map_cons]
    have ih2 := ih hrest
    simp only [parseKVFile] at ih2
    rw [ih2, parseLine_key_value kv.2 hk2]

/-- Witness for C6 amended: two newline-free settings, one value containing
an '='. -/
theorem c6_amended_roundtrip_witness :
    parseKVFile (serializeKVs
        [("Plugin".toList, "Katana".toList),
          ("Comment".toList, "c=1".toList)]) =
      [("Plugin".toList, "Katana".toList),
        ("Comment".toList, "c=1".toList)] :=
  c6_amended_roundtrip
    [("Plugin".toList, "Katana".toList), ("Comment".toList, "c=1".toList)]
    (by decide)

